import Mathlib

/-!
Shallow embedding of `house_watch.py`: a poll-extract-diff-notify watcher.

The embedding models the pure logic of the script:
* `extract_links` — normalization, domain filtering and order-preserving
  dedup of regex matches (the regex search itself, `re.findall` over the
  HTML-unescaped page, is abstracted as an input list of match strings);
* `netloc_of` — the `netloc` component of Python's `urllib.parse.urlparse`
  (CPython 3.11 semantics: WHATWG C0/space lstrip, removal of tab/CR/LF,
  optional scheme, authority after `//`, and every `ValueError` path of
  `urlsplit` — mismatched IPv6 brackets, `_check_bracketed_host` with the
  `ipaddress` IPv4/IPv6 grammar and the IPvFuture regex, and `_checknetloc`'s
  NFKC check — modelled as `none`);
* `load_state` / `save_state` — the JSON state file, with the on-disk
  condition abstracted as absent / unreadable-or-unparseable / parsed dict;
* `run_once` — one full cycle over the configured sources.  Network fetch
  results are abstracted as a function `url ↦ Option content` (`none` models
  a fetch that raised after retries), the regex engine as a function
  `pattern ↦ text ↦ matches`, and `hashlib.sha256(...).hexdigest()` as an
  arbitrary function `sha_of : String → String` (the code only uses that it
  is a deterministic function of the normalized link string).
  `telegram_notify`'s boolean result is ignored by the script, so the run
  result records the list of notification attempts rather than outcomes.
-/

namespace HouseWatch

/-! ### Python string primitives -/

/-- Structural prefix test, `pat.isPrefixOf l` on character lists. -/
def startsWith : List Char → List Char → Bool
  | [], _ => true
  | _ :: _, [] => false
  | p :: ps, c :: cs => p == c && startsWith ps cs

/-- Python `pat in s` for strings: contiguous-substring containment. -/
def containsSub (pat : List Char) : List Char → Bool
  | [] => pat.isEmpty
  | c :: cs => startsWith pat (c :: cs) || containsSub pat cs

/-- Python `s.split(pat)[0]` for a nonempty separator `pat`: the characters
before the first occurrence of `pat` (the whole string if none). -/
def splitSubFst (pat : List Char) : List Char → List Char
  | [] => []
  | c :: cs => if startsWith pat (c :: cs) then [] else c :: splitSubFst pat cs

/-- Python `s.split('#')[0]`: the characters before the first `'#'`. -/
def splitHashFst (l : List Char) : List Char :=
  l.takeWhile (fun c => c != '#')

/-- The normalization applied to every regex match in `extract_links`
(lines 92–93): `link = link.split('#')[0]` then `link = link.split('?utm_')[0]`. -/
def normalize (link : String) : String :=
  ⟨splitSubFst "?utm_".data (splitHashFst link.data)⟩

/-! ### `urlparse(...).netloc` -/

/-- WHATWG C0-control-or-space class stripped from both ends by CPython's
`urlsplit`. -/
def isC0OrSpace (c : Char) : Bool :=
  c.toNat ≤ 0x20

/-- Characters allowed in a URL scheme after the leading letter. -/
def schemeChar (c : Char) : Bool :=
  c.isAlpha || c.isDigit || c == '+' || c == '-' || c == '.'

/-- Split a list at the first character satisfying `p`: the part before it and
the part after it, or `none` when no character satisfies `p`. -/
def splitFirst (p : Char → Bool) : List Char → Option (List Char × List Char)
  | [] => none
  | c :: cs =>
    if p c then some ([], cs)
    else (splitFirst p cs).map (fun q => (c :: q.1, q.2))

/-- Drop a leading `scheme:` as CPython's `urlsplit` does: the part before the
first `':'` must be nonempty, start with an ASCII letter, and consist of scheme
characters; otherwise the input is returned unchanged. -/
def dropScheme (l : List Char) : List Char :=
  match splitFirst (fun c => c == ':') l with
  | none => l
  | some (pre, post) =>
    match pre with
    | [] => l
    | c0 :: _ => if c0.isAlpha && pre.all schemeChar then post else l

/-- Python `str.split(sep)` for a single-character separator: `""` gives one
empty part, `"a:b"` gives two. -/
def splitOnChar (sep : Char) : List Char → List (List Char)
  | [] => [[]]
  | c :: cs =>
    if c == sep then [] :: splitOnChar sep cs
    else
      match splitOnChar sep cs with
      | [] => [[c]]
      | r :: rs => (c :: r) :: rs

/-- Hex digits accepted by `ipaddress._parse_hextet`
(`frozenset('0123456789ABCDEFabcdef')`). -/
def isHexDigitPy (c : Char) : Bool :=
  ('0' ≤ c && c ≤ '9') || ('a' ≤ c && c ≤ 'f') || ('A' ≤ c && c ≤ 'F')

/-- Decimal value of a digit string (digits already validated). -/
def decDigitsVal (l : List Char) : Nat :=
  l.foldl (fun acc c => acc * 10 + (c.toNat - '0'.toNat)) 0

/-- `ipaddress.IPv4Address._parse_octet` (CPython 3.11): nonempty, ASCII
decimal digits only, at most 3 characters, no leading zero unless the octet is
exactly `0`, value at most 255. -/
def octetOk (o : List Char) : Bool :=
  !o.isEmpty && o.all (fun c => c.isDigit) && o.length ≤ 3
    && (o == ['0'] || o.headD ' ' != '0') && decDigitsVal o ≤ 255

/-- `ipaddress.IPv4Address` on a string: no `/`, exactly four `.`-separated
valid octets. -/
def ipv4Ok (s : List Char) : Bool :=
  !s.contains '/' && !s.isEmpty
    && (let octs := splitOnChar '.' s
        octs.length == 4 && octs.all octetOk)

/-- `ipaddress.IPv6Address._parse_hextet`: hex digits only, at most 4 of them,
and nonempty (`int('', 16)` raises). -/
def hextetOk (h : List Char) : Bool :=
  !h.isEmpty && h.all isHexDigitPy && h.length ≤ 4

/-- The core grammar of `ipaddress.IPv6Address._ip_int_from_string` after the
IPv4-suffix substitution: at most 9 `:`-separated parts, at most one empty
interior part (the `::` skip), an empty first or last part only as half of a
leading or trailing `::`, at least one part skipped when `::` is present,
exactly 8 parts with nonempty endpoints otherwise, and every non-skipped part
a valid hextet. -/
def ipv6PartsOk (parts : List (List Char)) : Bool :=
  if parts.length > 9 then false
  else
    let interior := (parts.drop 1).dropLast
    let empties := (interior.filter List.isEmpty).length
    if empties > 1 then false
    else if empties == 1 then
      let skipIdx := 1 + (interior.takeWhile (fun p => !p.isEmpty)).length
      let hi0 := skipIdx
      let lo0 := parts.length - skipIdx - 1
      let headEmpty := (parts.headD ['x']).isEmpty
      let lastEmpty := (parts.getLastD ['x']).isEmpty
      if headEmpty && hi0 - 1 != 0 then false
      else if lastEmpty && lo0 - 1 != 0 then false
      else
        let hi := if headEmpty then hi0 - 1 else hi0
        let lo := if lastEmpty then lo0 - 1 else lo0
        if 8 - (hi + lo) < 1 then false
        else (parts.take hi).all hextetOk && (parts.reverse.take lo).all hextetOk
    else
      parts.length == 8 && !(parts.headD []).isEmpty && !(parts.getLastD []).isEmpty
        && parts.all hextetOk

/-- `ipaddress.IPv6Address._ip_int_from_string` validity: nonempty, at least
3 `:`-separated parts, a `.`-containing last part must be a valid IPv4 address
and is replaced by two (always valid) hextets, then the part grammar. -/
def ipv6Ok (s : List Char) : Bool :=
  if s.isEmpty then false
  else
    let parts := splitOnChar ':' s
    if parts.length < 3 then false
    else if (parts.getLastD []).contains '.' then
      ipv4Ok (parts.getLastD []) && ipv6PartsOk (parts.dropLast ++ [['0'], ['0']])
    else ipv6PartsOk parts

/-- `ipaddress.IPv6Address` on a string: no `/`; an optional `%scope` suffix
(`_split_scope_id`) whose scope id must be nonempty and `%`-free; the
remainder a valid IPv6 literal. -/
def ipv6HostOk (host : List Char) : Bool :=
  if host.contains '/' then false
  else
    match splitFirst (fun c => c == '%') host with
    | none => ipv6Ok host
    | some (addr, scope) => !scope.isEmpty && !scope.contains '%' && ipv6Ok addr

/-- The regex `\Av[a-fA-F0-9]+\..+\Z` of `_check_bracketed_host` (IPvFuture):
`v`, one or more hex digits, a dot, then at least one character, none of which
is a newline (`.` under `re.match` without DOTALL).  Hex digits and `.` are
disjoint, so maximal munch coincides with backtracking. -/
def ipvFutureOk (host : List Char) : Bool :=
  match host with
  | 'v' :: rest =>
    let hexpart := rest.takeWhile isHexDigitPy
    !hexpart.isEmpty
      && (match rest.drop hexpart.length with
          | '.' :: tail => !tail.isEmpty && tail.all (fun c => c != '\n')
          | _ => false)
  | _ => false

/-- `urllib.parse._check_bracketed_host` (CPython 3.11) as a success
predicate: a host starting with `v` must match the IPvFuture regex; otherwise
`ipaddress.ip_address` (IPv4 tried first, then IPv6) must succeed and yield an
IPv6 address — a bracketed IPv4 address is rejected. -/
def bracketedHostOk (host : List Char) : Bool :=
  match host with
  | 'v' :: _ => ipvFutureOk host
  | _ => !ipv4Ok host && ipv6HostOk host

/-- `netloc.partition('[')[2].partition(']')[0]`: the bracketed host extracted
by `urlsplit` — after the first `[`, up to the next `]` (everything after the
`[` when no `]` follows it). -/
def bracketedHost (netloc : List Char) : List Char :=
  match splitFirst (fun c => c == '[') netloc with
  | none => []
  | some (_, after) =>
    match splitFirst (fun c => c == ']') after with
    | none => after
    | some (inner, _) => inner

/-- Code points (Unicode 14.0, the table of CPython 3.11's `unicodedata`)
whose NFKC normalization contains one of `/?#@:`. -/
def nfkcForbidden (c : Char) : Bool :=
  c.toNat == 0x2047 || c.toNat == 0x2048 || c.toNat == 0x2049
    || c.toNat == 0x2100 || c.toNat == 0x2101 || c.toNat == 0x2105
    || c.toNat == 0x2106 || c.toNat == 0x2a74 || c.toNat == 0xfe13
    || c.toNat == 0xfe16 || c.toNat == 0xfe55 || c.toNat == 0xfe56
    || c.toNat == 0xfe5f || c.toNat == 0xfe6b || c.toNat == 0xff03
    || c.toNat == 0xff0f || c.toNat == 0xff1a || c.toNat == 0xff1f
    || c.toNat == 0xff20

/-- `urllib.parse._checknetloc` on a netloc as produced by `_splitnetloc`
(which never contains `/`, `?` or `#`): an empty or all-ASCII netloc passes;
otherwise the ASCII `@ : # ?` are dropped and the check raises exactly when
the NFKC normalization of the remainder differs from it and contains one of
`/?#@:`.  On such inputs this holds exactly when some character's own NFKC
expansion introduces one of those five ASCII characters — the remainder
contains none of them literally, canonical composition never produces an
ASCII character, and reordering produces no new characters — and
`nfkcForbidden` enumerates those code points. -/
def checknetlocRaises (netloc : List Char) : Bool :=
  if netloc.isEmpty || netloc.all (fun c => decide (c.toNat ≤ 0x7f)) then false
  else
    (netloc.filter
      (fun c => !(c == '@' || c == ':' || c == '#' || c == '?'))).any nfkcForbidden

/-- Model of `urlparse(link).netloc` (CPython 3.11 `urlsplit`): lstrip C0
controls and spaces (left end only — trailing characters are preserved),
remove every tab/CR/LF, drop the scheme, and if the remainder starts with `//`
take the run up to the next `/`, `?` or `#` as the netloc.  A `ValueError` —
modelled as `none` — is raised for mismatched IPv6 brackets, for a bracketed
host that `_check_bracketed_host` rejects, or when `_checknetloc` rejects the
netloc under NFKC normalization; a URL with no `//` authority has netloc
`""`. -/
def netloc_of (link : String) : Option String :=
  let l := link.data.dropWhile isC0OrSpace
  let l := l.filter (fun c => !(c == '\t' || c == '\r' || c == '\n'))
  match dropScheme l with
  | '/' :: '/' :: rest =>
    let netloc := rest.takeWhile (fun c => !(c == '/' || c == '?' || c == '#'))
    if (netloc.contains '[' && !netloc.contains ']')
        || (netloc.contains ']' && !netloc.contains '[') then none
    else if netloc.contains '[' && netloc.contains ']'
        && !bracketedHostOk (bracketedHost netloc) then none
    else if checknetlocRaises netloc then none
    else some ⟨netloc⟩
  | _ => some ""

/-- Totalized `urlparse(url).netloc` as used on the configured source URLs at line 144,
where the call sits outside any `try` and the fixed `SOURCES` URLs always
parse; the bracket-`ValueError` case is totalized to `""`. -/
def netlocD (url : String) : String :=
  (netloc_of url).getD ""

/-! ### `extract_links` -/

/-- Order-preserving dedup (lines 102–107): keep the first occurrence of each
string.  `acc` holds the strings already emitted. -/
def dedupFirstAux (acc : List String) : List String → List String
  | [] => []
  | l :: ls => if l ∈ acc then dedupFirstAux acc ls else l :: dedupFirstAux (l :: acc) ls

def dedupFirst (ls : List String) : List String :=
  dedupFirstAux [] ls

/-- The per-match body of the extraction loop (lines 90–100): normalize the
match, drop it when its normalized form fails to URL-parse, keep it when the
parsed netloc contains `domain` as a substring. -/
def keepLink (domain : String) (link : String) : Option String :=
  let link := normalize link
  match netloc_of link with
  | none => none
  | some netloc => if containsSub domain.data netloc.data then some link else none

/-- Model of `extract_links` (lines 85–108) after the regex search: `rawMatches` is the
result of `re.findall(pattern, html.unescape(html_text), re.IGNORECASE)`.
Each match is normalized and filtered by `keepLink`, and the survivors are
deduplicated preserving first-seen order. -/
def extract_links (rawMatches : List String) (domain : String) : List String :=
  dedupFirst (rawMatches.filterMap (keepLink domain))

/-! ### State file -/

/-- The JSON object held in the state file, with both keys optional exactly as
the script reads them through `dict.get` with defaults. -/
structure StateDict where
  initializedKey : Option Bool
  seenKey : Option (List String)
deriving Repr, DecidableEq

/-- Python `state.get("initialized", False)`. -/
def getInitialized (s : StateDict) : Bool :=
  s.initializedKey.getD false

/-- Python `state.get("seen", [])`. -/
def getSeen (s : StateDict) : List String :=
  s.seenKey.getD []

/-- The fresh state `{"seen": []}` built by `load_state` when the file is
absent or unreadable (lines 50–54). -/
def freshState : StateDict :=
  { initializedKey := none, seenKey := some [] }

/-- Condition of the state file: `none` = absent (`FileNotFoundError`),
`some none` = present but unreadable or unparseable (any other exception),
`some (some st)` = parses to the dict `st`. -/
abbrev FileCond := Option (Option StateDict)

/-- Model of `load_state` (lines 46–54): absent file and read/parse errors both fall
back to the fresh `{"seen": []}` (the error case additionally logs a warning);
only a successfully parsed file yields its stored dict. -/
def load_state : FileCond → StateDict
  | none => freshState
  | some none => freshState
  | some (some st) => st

/-- The two files `save_state` touches: the canonical `STATE_FILE` and the
temporary `STATE_FILE + ".tmp"`.  A file's content is `none` when it does not
exist; `some none` is unparseable garbage, `some (some st)` parses to `st`. -/
structure Disk where
  canonical : FileCond
  tmpFile : FileCond
deriving Repr, DecidableEq

/-- First half of `save_state` (lines 57–59): `json.dump` the state into the
temporary path.  `json.dump` of a dict always round-trips, so the written
content parses back to `st`. -/
def save_write_tmp (d : Disk) (st : StateDict) : Disk :=
  { d with tmpFile := some (some st) }

/-- Second half of `save_state` (line 60): `os.replace(tmp, STATE_FILE)`
atomically renames the temporary file over the canonical path. -/
def save_rename (d : Disk) : Disk :=
  { canonical := d.tmpFile, tmpFile := none }

/-- Model of `save_state` (lines 56–60): write the temp file, then rename it over the
canonical path. -/
def save_state (d : Disk) (st : StateDict) : Disk :=
  save_rename (save_write_tmp d st)

/-! ### `run_once` -/

/-- One entry of the `SOURCES` configuration table (lines 28–41). -/
structure Source where
  name : String
  url : String
  pattern : String
deriving Repr, DecidableEq

/-- The in-flight data of one cycle: the counter `total_new`, the list
`newly_seen` of fingerprints appended for previously-unseen links, the
notification attempts (`telegram_notify(msg)` calls) and dry-run log lines as
`(source name, link)` pairs, and the names of sources whose fetch failed
(`[ERROR]` log lines). -/
structure CycleAcc where
  total_new : Nat
  newly_seen : List String
  notified : List (String × String)
  dryruns : List (String × String)
  errors : List String
deriving Repr, DecidableEq

def emptyAcc : CycleAcc :=
  { total_new := 0, newly_seen := [], notified := [], dryruns := [], errors := [] }

/-- The per-link body (lines 155–164).  `seen` is the set loaded at the start
of the cycle — the script never adds to it inside the loop — and `flag` is
`notify_first_run or state.get("initialized", False)`, constant through the
cycle because `state["initialized"]` is only written after the loop. -/
def processLink (sha_of : String → String) (seen : List String) (flag : Bool)
    (name : String) (acc : CycleAcc) (link : String) : CycleAcc :=
  let key := sha_of link
  if key ∈ seen then acc
  else
    { acc with
      total_new := acc.total_new + 1
      newly_seen := acc.newly_seen ++ [key]
      notified := if flag then acc.notified ++ [(name, link)] else acc.notified
      dryruns := if flag then acc.dryruns else acc.dryruns ++ [(name, link)] }

/-- The per-source body (lines 140–164): fetch — a failure is logged and the
source skipped — then extract and process each candidate link. -/
def processSource (sha_of : String → String) (matchesOf : String → String → List String)
    (fetchf : String → Option String) (seen : List String) (flag : Bool)
    (acc : CycleAcc) (src : Source) : CycleAcc :=
  match fetchf src.url with
  | none => { acc with errors := acc.errors ++ [src.name] }
  | some htext =>
    let links := extract_links (matchesOf src.pattern htext) (netlocD src.url)
    links.foldl (processLink sha_of seen flag src.name) acc

/-- The whole per-cycle source loop (lines 140–164), starting from the empty
accumulator. -/
def cycleAcc (sha_of : String → String) (matchesOf : String → String → List String)
    (fetchf : String → Option String) (seen : List String) (flag : Bool)
    (sources : List Source) : CycleAcc :=
  sources.foldl (processSource sha_of matchesOf fetchf seen flag) emptyAcc

/-- What one call of `run_once` produces: its return value, the dict passed to
`save_state`, and the cycle's observable events. -/
structure RunResult where
  ret : Nat
  saved : StateDict
  notified : List (String × String)
  dryruns : List (String × String)
  errors : List String
deriving Repr, DecidableEq

/-- Model of `run_once` (lines 133–172): load the state, process every source against
the seen set loaded at the start, then set `initialized` if it was unset,
store `list(seen.union(newly_seen))` — a duplicate-free list with exactly the
members of the union, order unspecified in Python and fixed here as
first-occurrence order — and save. -/
def run_once (sha_of : String → String) (matchesOf : String → String → List String)
    (fetchf : String → Option String) (sources : List Source)
    (notify_first_run : Bool) (file : FileCond) : RunResult :=
  let state := load_state file
  let seen := getSeen state
  let flag := notify_first_run || getInitialized state
  let acc := cycleAcc sha_of matchesOf fetchf seen flag sources
  let state := if getInitialized state then state
    else { state with initializedKey := some true }
  let state := { state with seenKey := some (dedupFirst (seen ++ acc.newly_seen)) }
  { ret := acc.total_new, saved := state,
    notified := acc.notified, dryruns := acc.dryruns, errors := acc.errors }

/-- Specification-side recount of the candidate links a cycle finds that are
not in the loaded seen set, computed directly from the fetch results and
`extract_links` rather than through the cycle fold. -/
def newCount (sha_of : String → String) (matchesOf : String → String → List String)
    (fetchf : String → Option String) (seen : List String)
    (sources : List Source) : Nat :=
  (sources.map (fun src =>
    match fetchf src.url with
    | none => 0
    | some htext =>
      ((extract_links (matchesOf src.pattern htext) (netlocD src.url)).filter
        (fun l => decide (sha_of l ∉ seen))).length)).sum

/-! ### Lemmas about normalization and extraction -/

theorem splitSubFst_isPre (pat : List Char) (l : List Char) :
    splitSubFst pat l <+: l := by
  induction l with
  | nil => simp [splitSubFst]
  | cons c cs ih =>
    simp only [splitSubFst]
    split
    · exact ⟨c :: cs, rfl⟩
    · obtain ⟨t, ht⟩ := ih
      exact ⟨t, by rw [List.cons_append, ht]⟩

theorem splitHashFst_isPre (l : List Char) : splitHashFst l <+: l :=
  List.takeWhile_prefix _

theorem hash_not_mem_splitHashFst (l : List Char) : '#' ∉ splitHashFst l := by
  intro hmem
  have hc := List.mem_takeWhile_imp hmem
  simp at hc

theorem normalize_isPre (link : String) : (normalize link).data <+: link.data :=
  (splitSubFst_isPre _ _).trans (splitHashFst_isPre _)

theorem hash_not_mem_normalize (link : String) : '#' ∉ (normalize link).data := by
  intro hmem
  exact hash_not_mem_splitHashFst link.data ((splitSubFst_isPre _ _).subset hmem)

theorem mem_dedupFirstAux (acc ls : List String) (x : String) :
    x ∈ dedupFirstAux acc ls ↔ x ∈ ls ∧ x ∉ acc := by
  induction ls generalizing acc with
  | nil => simp [dedupFirstAux]
  | cons l ls ih =>
    simp only [dedupFirstAux]
    split
    · rw [ih]
      constructor
      · rintro ⟨h1, h2⟩
        exact ⟨List.mem_cons_of_mem _ h1, h2⟩
      · rintro ⟨h1, h2⟩
        rcases List.mem_cons.mp h1 with h1 | h1
        · subst h1; exact absurd (by assumption) h2
        · exact ⟨h1, h2⟩
    · simp only [List.mem_cons, ih, List.mem_cons, not_or]
      constructor
      · rintro (h1 | ⟨h1, h2, h3⟩)
        · subst h1; exact ⟨Or.inl rfl, by assumption⟩
        · exact ⟨Or.inr h1, h3⟩
      · rintro ⟨h1 | h1, h2⟩
        · exact Or.inl h1
        · by_cases hx : x = l
          · exact Or.inl hx
          · exact Or.inr ⟨h1, hx, h2⟩

theorem mem_dedupFirst (ls : List String) (x : String) :
    x ∈ dedupFirst ls ↔ x ∈ ls := by
  simp [dedupFirst, mem_dedupFirstAux]

theorem nodup_dedupFirstAux (acc ls : List String) :
    (dedupFirstAux acc ls).Nodup := by
  induction ls generalizing acc with
  | nil => simp [dedupFirstAux]
  | cons l ls ih =>
    simp only [dedupFirstAux]
    split
    · exact ih acc
    · refine List.nodup_cons.mpr ⟨?_, ih (l :: acc)⟩
      intro hmem
      exact ((mem_dedupFirstAux _ _ _).mp hmem).2 (List.mem_cons_self _ _)

theorem nodup_dedupFirst (ls : List String) : (dedupFirst ls).Nodup :=
  nodup_dedupFirstAux [] ls

theorem keepLink_eq_some (domain m l : String) :
    keepLink domain m = some l ↔
      normalize m = l ∧ ∃ h, netloc_of l = some h ∧ containsSub domain.data h.data = true := by
  simp only [keepLink]
  split
  next hnet =>
    constructor
    · intro h1
      exact absurd h1 (by simp)
    · rintro ⟨rfl, h, hh, _⟩
      rw [hnet] at hh
      exact absurd hh (by simp)
  next nl hnet =>
    constructor
    · intro h1
      rw [ite_eq_iff] at h1
      rcases h1 with ⟨hc, h1⟩ | ⟨_, h1⟩
      · injection h1 with h1
        subst h1
        exact ⟨rfl, nl, hnet, hc⟩
      · exact absurd h1 (by simp)
    · rintro ⟨rfl, h, hh, hc⟩
      rw [hnet] at hh
      injection hh with hh
      subst hh
      rw [if_pos hc]

/-- Membership characterization of `extract_links`: the kept links are exactly
the normalized forms of matches whose normalized URL parses and whose netloc
contains the domain as a substring. -/
theorem mem_extract_links (rawMatches : List String) (domain l : String) :
    l ∈ extract_links rawMatches domain ↔
      (∃ m ∈ rawMatches, normalize m = l) ∧
      ∃ h, netloc_of l = some h ∧ containsSub domain.data h.data = true := by
  simp only [extract_links, mem_dedupFirst, List.mem_filterMap, keepLink_eq_some]
  constructor
  · rintro ⟨m, hm, rfl, hrest⟩
    exact ⟨⟨m, hm, rfl⟩, hrest⟩
  · rintro ⟨⟨m, hm, rfl⟩, hrest⟩
    exact ⟨m, hm, rfl, hrest⟩

/-! ### Lemmas about the per-link fold -/

section CycleLemmas

variable (sha_of : String → String) (matchesOf : String → String → List String)
variable (fetchf : String → Option String) (seen : List String) (flag : Bool) (name : String)

theorem processLink_of_seen (acc : CycleAcc) (link : String)
    (h : sha_of link ∈ seen) : processLink sha_of seen flag name acc link = acc := by
  simp [processLink, h]

theorem processLink_of_not_seen (acc : CycleAcc) (link : String)
    (h : sha_of link ∉ seen) :
    processLink sha_of seen flag name acc link =
      { acc with
        total_new := acc.total_new + 1
        newly_seen := acc.newly_seen ++ [sha_of link]
        notified := if flag then acc.notified ++ [(name, link)] else acc.notified
        dryruns := if flag then acc.dryruns else acc.dryruns ++ [(name, link)] } := by
  simp [processLink, h]

theorem processLink_errors (acc : CycleAcc) (link : String) :
    (processLink sha_of seen flag name acc link).errors = acc.errors := by
  by_cases h : sha_of link ∈ seen
  · rw [processLink_of_seen _ _ _ _ _ _ h]
  · rw [processLink_of_not_seen _ _ _ _ _ _ h]

theorem processLink_newly_mono (acc : CycleAcc) (link k : String)
    (h : k ∈ acc.newly_seen) :
    k ∈ (processLink sha_of seen flag name acc link).newly_seen := by
  by_cases hs : sha_of link ∈ seen
  · rw [processLink_of_seen _ _ _ _ _ _ hs]; exact h
  · rw [processLink_of_not_seen _ _ _ _ _ _ hs]
    exact List.mem_append_left _ h

theorem processLink_notified_mono (acc : CycleAcc) (link : String) (p : String × String)
    (h : p ∈ acc.notified) :
    p ∈ (processLink sha_of seen flag name acc link).notified := by
  by_cases hs : sha_of link ∈ seen
  · rw [processLink_of_seen _ _ _ _ _ _ hs]; exact h
  · rw [processLink_of_not_seen _ _ _ _ _ _ hs]
    cases flag
    · exact h
    · exact List.mem_append_left _ h

theorem processLink_dryruns_mono (acc : CycleAcc) (link : String) (p : String × String)
    (h : p ∈ acc.dryruns) :
    p ∈ (processLink sha_of seen flag name acc link).dryruns := by
  by_cases hs : sha_of link ∈ seen
  · rw [processLink_of_seen _ _ _ _ _ _ hs]; exact h
  · rw [processLink_of_not_seen _ _ _ _ _ _ hs]
    cases flag
    · exact List.mem_append_left _ h
    · exact h

theorem processLink_attempts (acc : CycleAcc) (link : String) (p : String × String)
    (hp : p ∈ (processLink sha_of seen flag name acc link).notified
            ++ (processLink sha_of seen flag name acc link).dryruns) :
    p ∈ acc.notified ++ acc.dryruns ∨ (p = (name, link) ∧ sha_of link ∉ seen) := by
  by_cases hs : sha_of link ∈ seen
  · rw [processLink_of_seen _ _ _ _ _ _ hs] at hp
    exact Or.inl hp
  · rw [processLink_of_not_seen _ _ _ _ _ _ hs] at hp
    simp only [List.mem_append] at hp ⊢
    cases flag <;> simp_all <;> tauto

/-- Invariant carried by the per-cycle accumulator: every notification attempt
or dry-run entry concerns a link whose fingerprint was absent from the seen
set loaded at cycle start, and that fingerprint has been appended to
`newly_seen`. -/
def AttemptsSound (sha_of : String → String) (seen : List String) (acc : CycleAcc) : Prop :=
  ∀ p ∈ acc.notified ++ acc.dryruns, sha_of p.2 ∉ seen ∧ sha_of p.2 ∈ acc.newly_seen

theorem attemptsSound_processLink (acc : CycleAcc) (link : String)
    (h : AttemptsSound sha_of seen acc) :
    AttemptsSound sha_of seen (processLink sha_of seen flag name acc link) := by
  intro p hp
  rcases processLink_attempts sha_of seen flag name acc link p hp with hold | ⟨rfl, hns⟩
  · obtain ⟨h1, h2⟩ := h p hold
    exact ⟨h1, processLink_newly_mono _ _ _ _ _ _ _ h2⟩
  · refine ⟨hns, ?_⟩
    rw [processLink_of_not_seen _ _ _ _ _ _ hns]
    simp

theorem foldl_processLink_errors (links : List String) (acc : CycleAcc) :
    (links.foldl (processLink sha_of seen flag name) acc).errors = acc.errors := by
  induction links generalizing acc with
  | nil => rfl
  | cons l ls ih =>
    rw [List.foldl_cons, ih, processLink_errors]

theorem foldl_processLink_newly_mono (links : List String) (acc : CycleAcc) (k : String)
    (h : k ∈ acc.newly_seen) :
    k ∈ (links.foldl (processLink sha_of seen flag name) acc).newly_seen := by
  induction links generalizing acc with
  | nil => exact h
  | cons l ls ih => exact ih _ (processLink_newly_mono _ _ _ _ _ _ _ h)

theorem foldl_processLink_notified_mono (links : List String) (acc : CycleAcc)
    (p : String × String) (h : p ∈ acc.notified) :
    p ∈ (links.foldl (processLink sha_of seen flag name) acc).notified := by
  induction links generalizing acc with
  | nil => exact h
  | cons l ls ih => exact ih _ (processLink_notified_mono _ _ _ _ _ _ _ h)

theorem foldl_processLink_dryruns_mono (links : List String) (acc : CycleAcc)
    (p : String × String) (h : p ∈ acc.dryruns) :
    p ∈ (links.foldl (processLink sha_of seen flag name) acc).dryruns := by
  induction links generalizing acc with
  | nil => exact h
  | cons l ls ih => exact ih _ (processLink_dryruns_mono _ _ _ _ _ _ _ h)

theorem attemptsSound_foldl_processLink (links : List String) (acc : CycleAcc)
    (h : AttemptsSound sha_of seen acc) :
    AttemptsSound sha_of seen (links.foldl (processLink sha_of seen flag name) acc) := by
  induction links generalizing acc with
  | nil => exact h
  | cons l ls ih => exact ih _ (attemptsSound_processLink _ _ _ _ _ _ h)

theorem foldl_processLink_total (links : List String) (acc : CycleAcc) :
    (links.foldl (processLink sha_of seen flag name) acc).total_new
      = acc.total_new + (links.filter (fun l => decide (sha_of l ∉ seen))).length := by
  induction links generalizing acc with
  | nil => simp
  | cons l ls ih =>
    rw [List.foldl_cons, ih]
    by_cases hs : sha_of l ∈ seen
    · rw [processLink_of_seen _ _ _ _ _ _ hs, List.filter_cons]
      simp [hs]
    · rw [processLink_of_not_seen _ _ _ _ _ _ hs, List.filter_cons]
      simp only [hs, decide_not, not_false_eq_true, decide_True, List.length_cons]
      simp [hs]
      omega

theorem foldl_processLink_notified_false (links : List String) (acc : CycleAcc) :
    (links.foldl (processLink sha_of seen false name) acc).notified = acc.notified := by
  induction links generalizing acc with
  | nil => rfl
  | cons l ls ih =>
    rw [List.foldl_cons, ih]
    by_cases hs : sha_of l ∈ seen
    · rw [processLink_of_seen _ _ _ _ _ _ hs]
    · rw [processLink_of_not_seen _ _ _ _ _ _ hs]
      simp

theorem foldl_processLink_dryruns_true (links : List String) (acc : CycleAcc) :
    (links.foldl (processLink sha_of seen true name) acc).dryruns = acc.dryruns := by
  induction links generalizing acc with
  | nil => rfl
  | cons l ls ih =>
    rw [List.foldl_cons, ih]
    by_cases hs : sha_of l ∈ seen
    · rw [processLink_of_seen _ _ _ _ _ _ hs]
    · rw [processLink_of_not_seen _ _ _ _ _ _ hs]
      simp

theorem foldl_processLink_dryruns_len_false (links : List String) (acc : CycleAcc) :
    (links.foldl (processLink sha_of seen false name) acc).dryruns.length
      = acc.dryruns.length + (links.filter (fun l => decide (sha_of l ∉ seen))).length := by
  induction links generalizing acc with
  | nil => simp
  | cons l ls ih =>
    rw [List.foldl_cons, ih]
    by_cases hs : sha_of l ∈ seen
    · rw [processLink_of_seen _ _ _ _ _ _ hs, List.filter_cons]
      simp [hs]
    · rw [processLink_of_not_seen _ _ _ _ _ _ hs, List.filter_cons]
      simp [hs]
      omega

theorem foldl_processLink_mem_notified (links : List String) (acc : CycleAcc)
    (l : String) (hl : l ∈ links) (hs : sha_of l ∉ seen) :
    (name, l) ∈ (links.foldl (processLink sha_of seen true name) acc).notified := by
  revert hl
  induction links generalizing acc with
  | nil => intro hl; cases hl
  | cons a as ih =>
    intro hl
    rw [List.foldl_cons]
    rcases List.mem_cons.mp hl with rfl | hl2
    · apply foldl_processLink_notified_mono
      rw [processLink_of_not_seen _ _ _ _ _ _ hs]
      simp
    · exact ih _ hl2

theorem foldl_processLink_mem_dryruns (links : List String) (acc : CycleAcc)
    (l : String) (hl : l ∈ links) (hs : sha_of l ∉ seen) :
    (name, l) ∈ (links.foldl (processLink sha_of seen false name) acc).dryruns := by
  revert hl
  induction links generalizing acc with
  | nil => intro hl; cases hl
  | cons a as ih =>
    intro hl
    rw [List.foldl_cons]
    rcases List.mem_cons.mp hl with rfl | hl2
    · apply foldl_processLink_dryruns_mono
      rw [processLink_of_not_seen _ _ _ _ _ _ hs]
      simp
    · exact ih _ hl2

theorem foldl_processLink_mem_attempt (links : List String) (acc : CycleAcc)
    (l : String) (hl : l ∈ links) (hs : sha_of l ∉ seen) :
    (name, l) ∈ (links.foldl (processLink sha_of seen flag name) acc).notified
      ++ (links.foldl (processLink sha_of seen flag name) acc).dryruns := by
  revert hl
  induction links generalizing acc with
  | nil => intro hl; cases hl
  | cons a as ih =>
    intro hl
    rw [List.foldl_cons]
    rcases List.mem_cons.mp hl with rfl | hl2
    · rw [List.mem_append]
      have hbase : (name, l) ∈ (processLink sha_of seen flag name acc l).notified
          ∨ (name, l) ∈ (processLink sha_of seen flag name acc l).dryruns := by
        rw [processLink_of_not_seen _ _ _ _ _ _ hs]
        cases flag <;> simp
      rcases hbase with hb | hb
      · exact Or.inl (foldl_processLink_notified_mono _ _ _ _ _ _ _ hb)
      · exact Or.inr (foldl_processLink_dryruns_mono _ _ _ _ _ _ _ hb)
    · exact ih _ hl2

theorem foldl_processLink_cover (links : List String) (acc : CycleAcc)
    (l : String) (hl : l ∈ links) (hs : sha_of l ∉ seen) :
    sha_of l ∈ (links.foldl (processLink sha_of seen flag name) acc).newly_seen := by
  revert hl
  induction links generalizing acc with
  | nil => intro hl; cases hl
  | cons a as ih =>
    intro hl
    rw [List.foldl_cons]
    rcases List.mem_cons.mp hl with rfl | hl2
    · apply foldl_processLink_newly_mono
      rw [processLink_of_not_seen _ _ _ _ _ _ hs]
      simp
    · exact ih _ hl2

theorem foldl_processLink_all_seen (links : List String) (acc : CycleAcc)
    (h : ∀ l ∈ links, sha_of l ∈ seen) :
    links.foldl (processLink sha_of seen flag name) acc = acc := by
  revert h
  induction links generalizing acc with
  | nil => intro _; rfl
  | cons a as ih =>
    intro h
    rw [List.foldl_cons, processLink_of_seen _ _ _ _ _ _ (h a (List.mem_cons_self a as))]
    exact ih _ (fun l hl => h l (List.mem_cons_of_mem _ hl))

end CycleLemmas

/-! ### Lemmas about the per-source fold -/

section SourceLemmas

variable (sha_of : String → String) (matchesOf : String → String → List String)
variable (fetchf : String → Option String) (seen : List String) (flag : Bool)

theorem processSource_of_fail (acc : CycleAcc) (src : Source)
    (h : fetchf src.url = none) :
    processSource sha_of matchesOf fetchf seen flag acc src
      = { acc with errors := acc.errors ++ [src.name] } := by
  simp [processSource, h]

theorem processSource_of_fetch (acc : CycleAcc) (src : Source) (c : String)
    (h : fetchf src.url = some c) :
    processSource sha_of matchesOf fetchf seen flag acc src
      = (extract_links (matchesOf src.pattern c) (netlocD src.url)).foldl
          (processLink sha_of seen flag src.name) acc := by
  simp [processSource, h]

theorem processSource_newly_mono (acc : CycleAcc) (src : Source) (k : String)
    (h : k ∈ acc.newly_seen) :
    k ∈ (processSource sha_of matchesOf fetchf seen flag acc src).newly_seen := by
  cases hf : fetchf src.url with
  | none => rw [processSource_of_fail _ _ _ _ _ _ _ hf]; exact h
  | some c =>
    rw [processSource_of_fetch _ _ _ _ _ _ _ _ hf]
    exact foldl_processLink_newly_mono _ _ _ _ _ _ _ h

theorem processSource_notified_mono (acc : CycleAcc) (src : Source) (p : String × String)
    (h : p ∈ acc.notified) :
    p ∈ (processSource sha_of matchesOf fetchf seen flag acc src).notified := by
  cases hf : fetchf src.url with
  | none => rw [processSource_of_fail _ _ _ _ _ _ _ hf]; exact h
  | some c =>
    rw [processSource_of_fetch _ _ _ _ _ _ _ _ hf]
    exact foldl_processLink_notified_mono _ _ _ _ _ _ _ h

theorem processSource_dryruns_mono (acc : CycleAcc) (src : Source) (p : String × String)
    (h : p ∈ acc.dryruns) :
    p ∈ (processSource sha_of matchesOf fetchf seen flag acc src).dryruns := by
  cases hf : fetchf src.url with
  | none => rw [processSource_of_fail _ _ _ _ _ _ _ hf]; exact h
  | some c =>
    rw [processSource_of_fetch _ _ _ _ _ _ _ _ hf]
    exact foldl_processLink_dryruns_mono _ _ _ _ _ _ _ h

theorem attemptsSound_processSource (acc : CycleAcc) (src : Source)
    (h : AttemptsSound sha_of seen acc) :
    AttemptsSound sha_of seen (processSource sha_of matchesOf fetchf seen flag acc src) := by
  cases hf : fetchf src.url with
  | none =>
    rw [processSource_of_fail _ _ _ _ _ _ _ hf]
    intro p hp
    exact h p hp
  | some c =>
    rw [processSource_of_fetch _ _ _ _ _ _ _ _ hf]
    exact attemptsSound_foldl_processLink _ _ _ _ _ _ h

theorem foldl_processSource_newly_mono (sources : List Source) (acc : CycleAcc) (k : String)
    (h : k ∈ acc.newly_seen) :
    k ∈ (sources.foldl (processSource sha_of matchesOf fetchf seen flag) acc).newly_seen := by
  induction sources generalizing acc with
  | nil => exact h
  | cons src rest ih => exact ih _ (processSource_newly_mono _ _ _ _ _ _ _ _ h)

theorem foldl_processSource_notified_mono (sources : List Source) (acc : CycleAcc)
    (p : String × String) (h : p ∈ acc.notified) :
    p ∈ (sources.foldl (processSource sha_of matchesOf fetchf seen flag) acc).notified := by
  induction sources generalizing acc with
  | nil => exact h
  | cons src rest ih => exact ih _ (processSource_notified_mono _ _ _ _ _ _ _ _ h)

theorem foldl_processSource_dryruns_mono (sources : List Source) (acc : CycleAcc)
    (p : String × String) (h : p ∈ acc.dryruns) :
    p ∈ (sources.foldl (processSource sha_of matchesOf fetchf seen flag) acc).dryruns := by
  induction sources generalizing acc with
  | nil => exact h
  | cons src rest ih => exact ih _ (processSource_dryruns_mono _ _ _ _ _ _ _ _ h)

theorem attemptsSound_foldl_processSource (sources : List Source) (acc : CycleAcc)
    (h : AttemptsSound sha_of seen acc) :
    AttemptsSound sha_of seen
      (sources.foldl (processSource sha_of matchesOf fetchf seen flag) acc) := by
  induction sources generalizing acc with
  | nil => exact h
  | cons src rest ih => exact ih _ (attemptsSound_processSource _ _ _ _ _ _ _ h)

theorem attemptsSound_emptyAcc : AttemptsSound sha_of seen emptyAcc := by
  intro p hp
  simp [emptyAcc] at hp

theorem attemptsSound_cycleAcc (sources : List Source) :
    AttemptsSound sha_of seen (cycleAcc sha_of matchesOf fetchf seen flag sources) :=
  attemptsSound_foldl_processSource _ _ _ _ _ _ _ (attemptsSound_emptyAcc _ _)

theorem newCount_cons_fail (src : Source) (sources : List Source)
    (hf : fetchf src.url = none) :
    newCount sha_of matchesOf fetchf seen (src :: sources)
      = newCount sha_of matchesOf fetchf seen sources := by
  simp [newCount, hf]

theorem newCount_cons_fetch (src : Source) (sources : List Source) (c : String)
    (hf : fetchf src.url = some c) :
    newCount sha_of matchesOf fetchf seen (src :: sources)
      = ((extract_links (matchesOf src.pattern c) (netlocD src.url)).filter
          (fun l => decide (sha_of l ∉ seen))).length
        + newCount sha_of matchesOf fetchf seen sources := by
  simp [newCount, hf]

theorem foldl_processSource_total (sources : List Source) (acc : CycleAcc) :
    (sources.foldl (processSource sha_of matchesOf fetchf seen flag) acc).total_new
      = acc.total_new + newCount sha_of matchesOf fetchf seen sources := by
  induction sources generalizing acc with
  | nil => simp [newCount]
  | cons src rest ih =>
    rw [List.foldl_cons, ih]
    cases hf : fetchf src.url with
    | none =>
      rw [processSource_of_fail _ _ _ _ _ _ _ hf, newCount_cons_fail _ _ _ _ _ _ hf]
    | some c =>
      rw [processSource_of_fetch _ _ _ _ _ _ _ _ hf, foldl_processLink_total,
        newCount_cons_fetch _ _ _ _ _ _ _ hf]
      omega

theorem foldl_processSource_notified_false (sources : List Source) (acc : CycleAcc) :
    (sources.foldl (processSource sha_of matchesOf fetchf seen false) acc).notified
      = acc.notified := by
  induction sources generalizing acc with
  | nil => rfl
  | cons src rest ih =>
    rw [List.foldl_cons, ih]
    cases hf : fetchf src.url with
    | none => rw [processSource_of_fail _ _ _ _ _ _ _ hf]
    | some c =>
      rw [processSource_of_fetch _ _ _ _ _ _ _ _ hf, foldl_processLink_notified_false]

theorem foldl_processSource_dryruns_true (sources : List Source) (acc : CycleAcc) :
    (sources.foldl (processSource sha_of matchesOf fetchf seen true) acc).dryruns
      = acc.dryruns := by
  induction sources generalizing acc with
  | nil => rfl
  | cons src rest ih =>
    rw [List.foldl_cons, ih]
    cases hf : fetchf src.url with
    | none => rw [processSource_of_fail _ _ _ _ _ _ _ hf]
    | some c =>
      rw [processSource_of_fetch _ _ _ _ _ _ _ _ hf, foldl_processLink_dryruns_true]

theorem foldl_processSource_dryruns_len_false (sources : List Source) (acc : CycleAcc) :
    (sources.foldl (processSource sha_of matchesOf fetchf seen false) acc).dryruns.length
      = acc.dryruns.length + newCount sha_of matchesOf fetchf seen sources := by
  induction sources generalizing acc with
  | nil => simp [newCount]
  | cons src rest ih =>
    rw [List.foldl_cons, ih]
    cases hf : fetchf src.url with
    | none =>
      rw [processSource_of_fail _ _ _ _ _ _ _ hf, newCount_cons_fail _ _ _ _ _ _ hf]
    | some c =>
      rw [processSource_of_fetch _ _ _ _ _ _ _ _ hf, foldl_processLink_dryruns_len_false,
        newCount_cons_fetch _ _ _ _ _ _ _ hf]
      omega

theorem foldl_processSource_mem_notified (sources : List Source) (acc : CycleAcc)
    (src : Source) (hsrc : src ∈ sources) (c : String) (hf : fetchf src.url = some c)
    (l : String) (hl : l ∈ extract_links (matchesOf src.pattern c) (netlocD src.url))
    (hs : sha_of l ∉ seen) :
    (src.name, l)
      ∈ (sources.foldl (processSource sha_of matchesOf fetchf seen true) acc).notified := by
  revert hsrc
  induction sources generalizing acc with
  | nil => intro hsrc; cases hsrc
  | cons a rest ih =>
    intro hsrc
    rw [List.foldl_cons]
    rcases List.mem_cons.mp hsrc with rfl | h2
    · apply foldl_processSource_notified_mono
      rw [processSource_of_fetch _ _ _ _ _ _ _ _ hf]
      exact foldl_processLink_mem_notified sha_of seen src.name _ acc l hl hs
    · exact ih _ h2

theorem foldl_processSource_mem_dryruns (sources : List Source) (acc : CycleAcc)
    (src : Source) (hsrc : src ∈ sources) (c : String) (hf : fetchf src.url = some c)
    (l : String) (hl : l ∈ extract_links (matchesOf src.pattern c) (netlocD src.url))
    (hs : sha_of l ∉ seen) :
    (src.name, l)
      ∈ (sources.foldl (processSource sha_of matchesOf fetchf seen false) acc).dryruns := by
  revert hsrc
  induction sources generalizing acc with
  | nil => intro hsrc; cases hsrc
  | cons a rest ih =>
    intro hsrc
    rw [List.foldl_cons]
    rcases List.mem_cons.mp hsrc with rfl | h2
    · apply foldl_processSource_dryruns_mono
      rw [processSource_of_fetch _ _ _ _ _ _ _ _ hf]
      exact foldl_processLink_mem_dryruns sha_of seen src.name _ acc l hl hs
    · exact ih _ h2

theorem foldl_processSource_mem_attempt (sources : List Source) (acc : CycleAcc)
    (src : Source) (hsrc : src ∈ sources) (c : String) (hf : fetchf src.url = some c)
    (l : String) (hl : l ∈ extract_links (matchesOf src.pattern c) (netlocD src.url))
    (hs : sha_of l ∉ seen) :
    (src.name, l)
      ∈ (sources.foldl (processSource sha_of matchesOf fetchf seen flag) acc).notified
        ++ (sources.foldl (processSource sha_of matchesOf fetchf seen flag) acc).dryruns := by
  revert hsrc
  induction sources generalizing acc with
  | nil => intro hsrc; cases hsrc
  | cons a rest ih =>
    intro hsrc
    rw [List.foldl_cons, List.mem_append]
    rcases List.mem_cons.mp hsrc with rfl | h2
    · have hbase := foldl_processLink_mem_attempt sha_of seen flag src.name
        (extract_links (matchesOf src.pattern c) (netlocD src.url)) acc l hl hs
      rw [List.mem_append] at hbase
      rw [processSource_of_fetch _ _ _ _ _ _ _ _ hf]
      rcases hbase with hb | hb
      · exact Or.inl (foldl_processSource_notified_mono _ _ _ _ _ _ _ _ hb)
      · exact Or.inr (foldl_processSource_dryruns_mono _ _ _ _ _ _ _ _ hb)
    · rw [← List.mem_append]
      exact ih _ h2

theorem foldl_processSource_cover (sources : List Source) (acc : CycleAcc)
    (src : Source) (hsrc : src ∈ sources) (c : String) (hf : fetchf src.url = some c)
    (l : String) (hl : l ∈ extract_links (matchesOf src.pattern c) (netlocD src.url)) :
    sha_of l ∈ seen
      ∨ sha_of l ∈ (sources.foldl (processSource sha_of matchesOf fetchf seen flag) acc).newly_seen := by
  by_cases hs : sha_of l ∈ seen
  · exact Or.inl hs
  · right
    revert hsrc
    induction sources generalizing acc with
    | nil => intro hsrc; cases hsrc
    | cons a rest ih =>
      intro hsrc
      rw [List.foldl_cons]
      rcases List.mem_cons.mp hsrc with rfl | h2
      · apply foldl_processSource_newly_mono
        rw [processSource_of_fetch _ _ _ _ _ _ _ _ hf]
        exact foldl_processLink_cover _ _ _ _ _ _ _ hl hs
      · exact ih _ h2

theorem foldl_processSource_all_seen (sources : List Source) (acc : CycleAcc)
    (h : ∀ src ∈ sources, ∀ c, fetchf src.url = some c →
      ∀ l ∈ extract_links (matchesOf src.pattern c) (netlocD src.url), sha_of l ∈ seen) :
    (sources.foldl (processSource sha_of matchesOf fetchf seen flag) acc).total_new
        = acc.total_new
      ∧ (sources.foldl (processSource sha_of matchesOf fetchf seen flag) acc).notified
        = acc.notified
      ∧ (sources.foldl (processSource sha_of matchesOf fetchf seen flag) acc).dryruns
        = acc.dryruns
      ∧ (sources.foldl (processSource sha_of matchesOf fetchf seen flag) acc).newly_seen
        = acc.newly_seen := by
  revert h
  induction sources generalizing acc with
  | nil => intro _; exact ⟨rfl, rfl, rfl, rfl⟩
  | cons src rest ih =>
    intro h
    rw [List.foldl_cons]
    have hstep : (processSource sha_of matchesOf fetchf seen flag acc src).total_new
          = acc.total_new
        ∧ (processSource sha_of matchesOf fetchf seen flag acc src).notified = acc.notified
        ∧ (processSource sha_of matchesOf fetchf seen flag acc src).dryruns = acc.dryruns
        ∧ (processSource sha_of matchesOf fetchf seen flag acc src).newly_seen
          = acc.newly_seen := by
      cases hf : fetchf src.url with
      | none =>
        rw [processSource_of_fail _ _ _ _ _ _ _ hf]
        exact ⟨rfl, rfl, rfl, rfl⟩
      | some c =>
        rw [processSource_of_fetch _ _ _ _ _ _ _ _ hf,
          foldl_processLink_all_seen _ _ _ _ _ _
            (h src (List.mem_cons_self src rest) c hf)]
        exact ⟨rfl, rfl, rfl, rfl⟩
    have hrest := ih (processSource sha_of matchesOf fetchf seen flag acc src)
      (fun s hsv => h s (List.mem_cons_of_mem _ hsv))
    obtain ⟨e1, e2, e3, e4⟩ := hstep
    obtain ⟨f1, f2, f3, f4⟩ := hrest
    exact ⟨f1.trans e1, f2.trans e2, f3.trans e3, f4.trans e4⟩

end SourceLemmas

/-! ### Unfolding lemmas for `run_once` -/

section RunOnceLemmas

variable (sha_of : String → String) (matchesOf : String → String → List String)
variable (fetchf : String → Option String) (sources : List Source)
variable (nf : Bool) (file : FileCond)

theorem run_once_ret_eq :
    (run_once sha_of matchesOf fetchf sources nf file).ret
      = (cycleAcc sha_of matchesOf fetchf (getSeen (load_state file))
          (nf || getInitialized (load_state file)) sources).total_new := rfl

theorem run_once_notified_eq :
    (run_once sha_of matchesOf fetchf sources nf file).notified
      = (cycleAcc sha_of matchesOf fetchf (getSeen (load_state file))
          (nf || getInitialized (load_state file)) sources).notified := rfl

theorem run_once_dryruns_eq :
    (run_once sha_of matchesOf fetchf sources nf file).dryruns
      = (cycleAcc sha_of matchesOf fetchf (getSeen (load_state file))
          (nf || getInitialized (load_state file)) sources).dryruns := rfl

theorem run_once_errors_eq :
    (run_once sha_of matchesOf fetchf sources nf file).errors
      = (cycleAcc sha_of matchesOf fetchf (getSeen (load_state file))
          (nf || getInitialized (load_state file)) sources).errors := rfl

theorem run_once_saved_getSeen :
    getSeen (run_once sha_of matchesOf fetchf sources nf file).saved
      = dedupFirst (getSeen (load_state file)
          ++ (cycleAcc sha_of matchesOf fetchf (getSeen (load_state file))
              (nf || getInitialized (load_state file)) sources).newly_seen) := rfl

theorem run_once_saved_getInitialized :
    getInitialized (run_once sha_of matchesOf fetchf sources nf file).saved = true := by
  by_cases h : getInitialized (load_state file) = true
  · simp [run_once, getInitialized, h]
    rw [if_pos]
    · exact h
    · exact h
  · simp [run_once, getInitialized]
    rw [if_neg]
    · simp
    · simpa [getInitialized] using h

end RunOnceLemmas

/-! ### Claim theorems -/

/-- Claim C6: `save_state` first serializes the full state to the temporary
path and only then renames it over the canonical path: a stop after the
temp-file write (and a fortiori a failed write) leaves the previous canonical
file intact and unchanged, while a completed save leaves the canonical file
holding exactly the new state, never an intermediate mixture. -/
theorem save_state_atomicity (d : Disk) (st : StateDict) :
    (save_write_tmp d st).canonical = d.canonical
      ∧ (save_state d st).canonical = some (some st)
      ∧ save_state d st = { canonical := some (some st), tmpFile := none } :=
  ⟨rfl, rfl, rfl⟩

/-- Claim C9: `load_state` never fails the caller: an absent file and an
unreadable or unparseable file both yield the fresh empty state — empty seen
list and `initialized` read as false by `dict.get` — and only a successfully
parsed file yields its stored dict. -/
theorem load_state_never_fails :
    load_state none = freshState
      ∧ load_state (some none) = freshState
      ∧ (∀ st : StateDict, load_state (some (some st)) = st)
      ∧ getSeen freshState = []
      ∧ getInitialized freshState = false :=
  ⟨rfl, rfl, fun _ => rfl, rfl, rfl⟩

/-- Claim C10: after every completed cycle the persisted seen list is
duplicate-free: the cycle stores the union of the loaded fingerprints and the
newly collected ones as a set, so the saved JSON array has no repeated
entries. -/
theorem saved_seen_nodup (sha_of : String → String)
    (matchesOf : String → String → List String) (fetchf : String → Option String)
    (sources : List Source) (nf : Bool) (file : FileCond) :
    (getSeen (run_once sha_of matchesOf fetchf sources nf file).saved).Nodup := by
  rw [run_once_saved_getSeen]
  exact nodup_dedupFirst _

/-- Claim C4: the seen set persisted at the end of a cycle contains every
fingerprint loaded at its start (nothing is ever removed), and the fingerprint
of every newly-discovered link — whether its notification was attempted
(`notified`) or suppressed (`dryruns`); the script ignores `telegram_notify`'s
boolean result, so a failed attempt is recorded identically to a successful
one — is in the persisted seen set. -/
theorem seen_only_grows (sha_of : String → String)
    (matchesOf : String → String → List String) (fetchf : String → Option String)
    (sources : List Source) (nf : Bool) (file : FileCond) :
    (∀ k ∈ getSeen (load_state file),
        k ∈ getSeen (run_once sha_of matchesOf fetchf sources nf file).saved)
      ∧ (∀ p ∈ (run_once sha_of matchesOf fetchf sources nf file).notified
            ++ (run_once sha_of matchesOf fetchf sources nf file).dryruns,
          sha_of p.2 ∈ getSeen (run_once sha_of matchesOf fetchf sources nf file).saved) := by
  constructor
  · intro k hk
    rw [run_once_saved_getSeen]
    exact (mem_dedupFirst _ _).mpr (List.mem_append_left _ hk)
  · intro p hp
    rw [run_once_notified_eq, run_once_dryruns_eq] at hp
    have hsound := attemptsSound_cycleAcc sha_of matchesOf fetchf
      (getSeen (load_state file)) (nf || getInitialized (load_state file)) sources p hp
    rw [run_once_saved_getSeen]
    exact (mem_dedupFirst _ _).mpr (List.mem_append_right _ hsound.2)

/-- Claim C4 witness: evaluate the theorem at a concrete cycle (the `∈`
quantifiers are hypotheses of the conjuncts). -/
theorem seen_only_grows_witness :
    "k0" ∈ getSeen (load_state (some (some ⟨none, some ["k0"]⟩)))
      ∧ "k0" ∈ getSeen (run_once id (fun _ _ => []) (fun _ => none) [] false
          (some (some ⟨none, some ["k0"]⟩))).saved :=
  ⟨by decide, (seen_only_grows id (fun _ _ => []) (fun _ => none) [] false
    (some (some ⟨none, some ["k0"]⟩))).1 "k0" (by decide)⟩

/-- Claim C2: with fetch results fixed (the same fetch function on both runs),
running the cycle twice from any starting file yields zero new items the
second time: the second `run_once` returns 0 and produces neither
notifications nor dry-run logs, because every fingerprint produced from the
unchanged content was persisted by the first run. -/
theorem second_cycle_finds_nothing (sha_of : String → String)
    (matchesOf : String → String → List String) (fetchf : String → Option String)
    (sources : List Source) (nf1 nf2 : Bool) (file : FileCond) :
    (run_once sha_of matchesOf fetchf sources nf2
        (some (some (run_once sha_of matchesOf fetchf sources nf1 file).saved))).ret = 0
      ∧ (run_once sha_of matchesOf fetchf sources nf2
          (some (some (run_once sha_of matchesOf fetchf sources nf1 file).saved))).notified = []
      ∧ (run_once sha_of matchesOf fetchf sources nf2
          (some (some (run_once sha_of matchesOf fetchf sources nf1 file).saved))).dryruns = [] := by
  have hall : ∀ src ∈ sources, ∀ c, fetchf src.url = some c →
      ∀ l ∈ extract_links (matchesOf src.pattern c) (netlocD src.url),
        sha_of l ∈ getSeen (run_once sha_of matchesOf fetchf sources nf1 file).saved := by
    intro src hsrc c hc l hl
    rw [run_once_saved_getSeen, mem_dedupFirst]
    rcases foldl_processSource_cover sha_of matchesOf fetchf (getSeen (load_state file))
        (nf1 || getInitialized (load_state file)) sources emptyAcc src hsrc c hc l hl with
      h | h
    · exact List.mem_append_left _ h
    · exact List.mem_append_right _ h
  have h2 := foldl_processSource_all_seen sha_of matchesOf fetchf
    (getSeen (run_once sha_of matchesOf fetchf sources nf1 file).saved)
    (nf2 || getInitialized (run_once sha_of matchesOf fetchf sources nf1 file).saved)
    sources emptyAcc hall
  refine ⟨?_, ?_, ?_⟩
  · rw [run_once_ret_eq]
    exact h2.1
  · rw [run_once_notified_eq]
    exact h2.2.1
  · rw [run_once_dryruns_eq]
    exact h2.2.2.1

/-- Claim C1 counterexample: the claim is false as stated.  Because `run_once`
never adds to the in-memory `seen` set inside the loop (only `newly_seen` is
appended, and `seen` is consulted as loaded at cycle start), the same link —
hence the same fingerprint, here with `sha_of = id` — extracted from two
different sources within one cycle is notified twice in the same process. -/
theorem same_fingerprint_notified_twice_in_one_cycle :
    (run_once id (fun _ _ => ["http://d/x"]) (fun _ => some "page")
        [⟨"A", "http://d/a", "p1"⟩, ⟨"B", "http://d/b", "p2"⟩] true none).notified
      = [("A", "http://d/x"), ("B", "http://d/x")]
      ∧ (run_once id (fun _ _ => ["http://d/x"]) (fun _ => some "page")
          [⟨"A", "http://d/a", "p1"⟩, ⟨"B", "http://d/b", "p2"⟩] true none).ret = 2 := by
  constructor
  · decide
  · decide

/-- Claim C1 (amended): once a fingerprint has been notified or dry-run logged
in a cycle that completed (its final save persisted), no attempt in the next
cycle — whatever that cycle fetches — concerns the same fingerprint.  The
original claim's within-cycle half is refuted by
the dedicated counterexample: the loaded seen set is not updated during the
loop, so the same fingerprint reached from a different source in the same
cycle is attempted once per source. -/
theorem no_attempt_for_fingerprint_of_earlier_cycle (sha_of : String → String)
    (matchesOf : String → String → List String) (fe1 fe2 : String → Option String)
    (sources : List Source) (nf1 nf2 : Bool) (file : FileCond) (p q : String × String)
    (hp : p ∈ (run_once sha_of matchesOf fe2 sources nf2
          (some (some (run_once sha_of matchesOf fe1 sources nf1 file).saved))).notified
        ++ (run_once sha_of matchesOf fe2 sources nf2
          (some (some (run_once sha_of matchesOf fe1 sources nf1 file).saved))).dryruns)
    (hq : q ∈ (run_once sha_of matchesOf fe1 sources nf1 file).notified
        ++ (run_once sha_of matchesOf fe1 sources nf1 file).dryruns) :
    sha_of p.2 ≠ sha_of q.2 := by
  rw [run_once_notified_eq, run_once_dryruns_eq] at hp hq
  have hq2 := attemptsSound_cycleAcc sha_of matchesOf fe1 (getSeen (load_state file))
    (nf1 || getInitialized (load_state file)) sources q hq
  have hp2 := attemptsSound_cycleAcc sha_of matchesOf fe2
    (getSeen (load_state (some (some (run_once sha_of matchesOf fe1 sources nf1 file).saved))))
    (nf2 || getInitialized
      (load_state (some (some (run_once sha_of matchesOf fe1 sources nf1 file).saved))))
    sources p hp
  intro heq
  apply hp2.1
  rw [heq]
  show sha_of q.2 ∈ getSeen (run_once sha_of matchesOf fe1 sources nf1 file).saved
  rw [run_once_saved_getSeen]
  exact (mem_dedupFirst _ _).mpr (List.mem_append_right _ hq2.2)

/-- Claim C1 (amended) witness: concrete two-cycle run in which cycle one
notifies `http://d/1`, cycle two notifies the genuinely new `http://d/2`, and
the theorem yields that the two attempts carry different fingerprints. -/
theorem no_attempt_for_fingerprint_of_earlier_cycle_witness :
    ("A", "http://d/2") ∈ (run_once id
          (fun _ c => if c = "c1" then ["http://d/1"] else ["http://d/1", "http://d/2"])
          (fun _ => some "c2") [⟨"A", "http://d/a", "p"⟩] true
          (some (some (run_once id
            (fun _ c => if c = "c1" then ["http://d/1"] else ["http://d/1", "http://d/2"])
            (fun _ => some "c1") [⟨"A", "http://d/a", "p"⟩] true none).saved))).notified
        ++ (run_once id
          (fun _ c => if c = "c1" then ["http://d/1"] else ["http://d/1", "http://d/2"])
          (fun _ => some "c2") [⟨"A", "http://d/a", "p"⟩] true
          (some (some (run_once id
            (fun _ c => if c = "c1" then ["http://d/1"] else ["http://d/1", "http://d/2"])
            (fun _ => some "c1") [⟨"A", "http://d/a", "p"⟩] true none).saved))).dryruns
      ∧ ("A", "http://d/1") ∈ (run_once id
          (fun _ c => if c = "c1" then ["http://d/1"] else ["http://d/1", "http://d/2"])
          (fun _ => some "c1") [⟨"A", "http://d/a", "p"⟩] true none).notified
        ++ (run_once id
          (fun _ c => if c = "c1" then ["http://d/1"] else ["http://d/1", "http://d/2"])
          (fun _ => some "c1") [⟨"A", "http://d/a", "p"⟩] true none).dryruns
      ∧ id ("A", "http://d/2").2 ≠ id ("A", "http://d/1").2 :=
  ⟨by decide, by decide,
    no_attempt_for_fingerprint_of_earlier_cycle id
      (fun _ c => if c = "c1" then ["http://d/1"] else ["http://d/1", "http://d/2"])
      (fun _ => some "c1") (fun _ => some "c2") [⟨"A", "http://d/a", "p"⟩] true true none
      ("A", "http://d/2") ("A", "http://d/1") (by decide) (by decide)⟩

/-- Claim C3: when the cycle's notify flag `notify_first_run or initialized`
is false (first run with suppression on), the cycle sends no notifications,
logs one dry-run line per previously-unseen candidate link, returns that
count, records each such fingerprint in the persisted seen set, and flips
`initialized` to true; conversely when the flag is true, no dry-run lines are
produced and the notifier is called for every previously-unseen candidate
link of every successfully fetched source. -/
theorem first_run_suppression (sha_of : String → String)
    (matchesOf : String → String → List String) (fetchf : String → Option String)
    (sources : List Source) (nf : Bool) (file : FileCond) :
    ((nf || getInitialized (load_state file)) = false →
      (run_once sha_of matchesOf fetchf sources nf file).notified = []
        ∧ (run_once sha_of matchesOf fetchf sources nf file).ret
            = newCount sha_of matchesOf fetchf (getSeen (load_state file)) sources
        ∧ (run_once sha_of matchesOf fetchf sources nf file).dryruns.length
            = newCount sha_of matchesOf fetchf (getSeen (load_state file)) sources
        ∧ (∀ p ∈ (run_once sha_of matchesOf fetchf sources nf file).dryruns,
            sha_of p.2 ∈ getSeen (run_once sha_of matchesOf fetchf sources nf file).saved)
        ∧ getInitialized (run_once sha_of matchesOf fetchf sources nf file).saved = true)
      ∧ ((nf || getInitialized (load_state file)) = true →
        (run_once sha_of matchesOf fetchf sources nf file).dryruns = []
          ∧ ∀ src ∈ sources, ∀ c, fetchf src.url = some c →
              ∀ l ∈ extract_links (matchesOf src.pattern c) (netlocD src.url),
                sha_of l ∉ getSeen (load_state file) →
                  (src.name, l) ∈ (run_once sha_of matchesOf fetchf sources nf file).notified) := by
  constructor
  · intro hflag
    refine ⟨?_, ?_, ?_, ?_, run_once_saved_getInitialized sha_of matchesOf fetchf sources nf file⟩
    · rw [run_once_notified_eq, hflag]
      exact foldl_processSource_notified_false sha_of matchesOf fetchf
        (getSeen (load_state file)) sources emptyAcc
    · rw [run_once_ret_eq]
      rw [show (cycleAcc sha_of matchesOf fetchf (getSeen (load_state file))
          (nf || getInitialized (load_state file)) sources) = List.foldl
            (processSource sha_of matchesOf fetchf (getSeen (load_state file))
              (nf || getInitialized (load_state file))) emptyAcc sources from rfl,
        foldl_processSource_total]
      simp [emptyAcc]
    · rw [run_once_dryruns_eq, hflag]
      rw [show (cycleAcc sha_of matchesOf fetchf (getSeen (load_state file)) false sources)
          = List.foldl (processSource sha_of matchesOf fetchf (getSeen (load_state file))
              false) emptyAcc sources from rfl,
        foldl_processSource_dryruns_len_false]
      simp [emptyAcc]
    · intro p hp
      rw [run_once_dryruns_eq] at hp
      have hsound := attemptsSound_cycleAcc sha_of matchesOf fetchf
        (getSeen (load_state file)) (nf || getInitialized (load_state file)) sources p
        (List.mem_append_right _ hp)
      rw [run_once_saved_getSeen]
      exact (mem_dedupFirst _ _).mpr (List.mem_append_right _ hsound.2)
  · intro hflag
    constructor
    · rw [run_once_dryruns_eq, hflag]
      exact foldl_processSource_dryruns_true sha_of matchesOf fetchf
        (getSeen (load_state file)) sources emptyAcc
    · intro src hsrc c hc l hl hs
      rw [run_once_notified_eq, hflag]
      exact foldl_processSource_mem_notified sha_of matchesOf fetchf
        (getSeen (load_state file)) sources emptyAcc src hsrc c hc l hl hs

/-- Claim C3 witness: both directions of the theorem evaluated on a concrete
cycle finding three previously-unseen candidate links. -/
theorem first_run_suppression_witness :
    ((false || getInitialized (load_state none)) = false
      ∧ (run_once id (fun _ _ => ["http://d/1", "http://d/2", "http://d/3"])
          (fun _ => some "c") [⟨"A", "http://d/a", "p"⟩] false none).notified = [])
      ∧ ((true || getInitialized (load_state none)) = true
        ∧ (run_once id (fun _ _ => ["http://d/1", "http://d/2", "http://d/3"])
            (fun _ => some "c") [⟨"A", "http://d/a", "p"⟩] true none).dryruns = []) :=
  ⟨⟨rfl, ((first_run_suppression id (fun _ _ => ["http://d/1", "http://d/2", "http://d/3"])
      (fun _ => some "c") [⟨"A", "http://d/a", "p"⟩] false none).1 rfl).1⟩,
    ⟨rfl, ((first_run_suppression id (fun _ _ => ["http://d/1", "http://d/2", "http://d/3"])
      (fun _ => some "c") [⟨"A", "http://d/a", "p"⟩] true none).2 rfl).1⟩⟩

/-- Claim C5: in a cycle over two sources where the first source's fetch fails
and the second's succeeds, the failed source is recorded in the error log and
skipped without aborting the cycle: the cycle returns the number of
previously-unseen links of the successful source, notifies (or dry-runs) each
of them, and persists their fingerprints. -/
theorem partial_failure_isolated (sha_of : String → String)
    (matchesOf : String → String → List String) (fetchf : String → Option String)
    (srcA srcB : Source) (nf : Bool) (file : FileCond) (c : String)
    (hA : fetchf srcA.url = none) (hB : fetchf srcB.url = some c) :
    (run_once sha_of matchesOf fetchf [srcA, srcB] nf file).errors = [srcA.name]
      ∧ (run_once sha_of matchesOf fetchf [srcA, srcB] nf file).ret
          = ((extract_links (matchesOf srcB.pattern c) (netlocD srcB.url)).filter
              (fun l => decide (sha_of l ∉ getSeen (load_state file)))).length
      ∧ (∀ l ∈ extract_links (matchesOf srcB.pattern c) (netlocD srcB.url),
          sha_of l ∉ getSeen (load_state file) →
            sha_of l ∈ getSeen (run_once sha_of matchesOf fetchf [srcA, srcB] nf file).saved
              ∧ (srcB.name, l) ∈ (run_once sha_of matchesOf fetchf [srcA, srcB] nf file).notified
                ++ (run_once sha_of matchesOf fetchf [srcA, srcB] nf file).dryruns) := by
  refine ⟨?_, ?_, ?_⟩
  · rw [run_once_errors_eq]
    show (processSource sha_of matchesOf fetchf (getSeen (load_state file))
        (nf || getInitialized (load_state file))
        (processSource sha_of matchesOf fetchf (getSeen (load_state file))
          (nf || getInitialized (load_state file)) emptyAcc srcA) srcB).errors = [srcA.name]
    rw [processSource_of_fail _ _ _ _ _ _ _ hA]
    cases hf : fetchf srcB.url with
    | none =>
      rw [hB] at hf
      cases hf
    | some c2 =>
      rw [processSource_of_fetch _ _ _ _ _ _ _ _ hf, foldl_processLink_errors]
      simp [emptyAcc]
  · rw [run_once_ret_eq]
    rw [show (cycleAcc sha_of matchesOf fetchf (getSeen (load_state file))
        (nf || getInitialized (load_state file)) [srcA, srcB]) = List.foldl
          (processSource sha_of matchesOf fetchf (getSeen (load_state file))
            (nf || getInitialized (load_state file))) emptyAcc [srcA, srcB] from rfl,
      foldl_processSource_total,
      newCount_cons_fail _ _ _ _ _ _ hA, newCount_cons_fetch _ _ _ _ _ _ _ hB]
    simp [newCount, emptyAcc]
  · intro l hl hs
    constructor
    · rw [run_once_saved_getSeen]
      rw [mem_dedupFirst]
      refine List.mem_append_right _ ?_
      have hcov := foldl_processSource_cover sha_of matchesOf fetchf
        (getSeen (load_state file)) (nf || getInitialized (load_state file))
        [srcA, srcB] emptyAcc srcB (by simp) c hB l hl
      rcases hcov with h | h
      · exact absurd h hs
      · exact h
    · rw [run_once_notified_eq, run_once_dryruns_eq]
      exact foldl_processSource_mem_attempt sha_of matchesOf fetchf
        (getSeen (load_state file)) (nf || getInitialized (load_state file))
        [srcA, srcB] emptyAcc srcB (by simp) c hB l hl hs

/-- Claim C5 witness: a concrete cycle in which source `A`'s fetch fails, `B`
yields two previously-unseen links, and the cycle reports the failure,
returns 2 and keeps going. -/
theorem partial_failure_isolated_witness :
    (fun u => if u = "http://b/q" then some "page" else none) "http://a/q" = none
      ∧ (fun u => if u = "http://b/q" then some "page" else none) "http://b/q" = some "page"
      ∧ (run_once id (fun p _ => if p = "pb" then ["http://b/1", "http://b/2"] else [])
          (fun u => if u = "http://b/q" then some "page" else none)
          [⟨"A", "http://a/q", "pa"⟩, ⟨"B", "http://b/q", "pb"⟩] true none).errors = ["A"]
      ∧ (run_once id (fun p _ => if p = "pb" then ["http://b/1", "http://b/2"] else [])
          (fun u => if u = "http://b/q" then some "page" else none)
          [⟨"A", "http://a/q", "pa"⟩, ⟨"B", "http://b/q", "pb"⟩] true none).ret = 2 :=
  ⟨by decide, by decide,
    (partial_failure_isolated id (fun p _ => if p = "pb" then ["http://b/1", "http://b/2"] else [])
      (fun u => if u = "http://b/q" then some "page" else none)
      ⟨"A", "http://a/q", "pa"⟩ ⟨"B", "http://b/q", "pb"⟩ true none "page"
      (by decide) (by decide)).1,
    by decide⟩

/-- Claim C7: a normalized link is kept by the extractor exactly when it is
the normalized form of some match, its URL parses, and the parsed host
contains the configured domain as a substring; a match whose normalized URL
cannot be parsed is silently dropped.  Concretely, with domain `example.com`
the hosts `evil.example.com` and `notexample.com` (both containing the
substring) are kept and `example.org` is discarded; every `ValueError` path of
`urlparse` drops the match even when the host contains the domain: the
mismatched bracket of `http://[::1/x`, the bracketed non-IP host `[abc]`, the
bracketed IPv4 host `[1.2.3.4]`, and the NFKC-invalid host `a℀b.com` — while
the valid bracketed IPv6 host `[::1]` is kept. -/
theorem domain_filter_via_netloc (rawMatches : List String) (domain l : String) :
    (l ∈ extract_links rawMatches domain ↔
      (∃ m ∈ rawMatches, normalize m = l)
        ∧ ∃ h, netloc_of l = some h ∧ containsSub domain.data h.data = true)
      ∧ extract_links ["https://evil.example.com/x"] "example.com"
          = ["https://evil.example.com/x"]
      ∧ extract_links ["https://notexample.com/x"] "example.com"
          = ["https://notexample.com/x"]
      ∧ extract_links ["https://example.org/x"] "example.com" = []
      ∧ extract_links ["http://[::1/x"] "example.com" = []
      ∧ extract_links ["http://[abc]/x"] "abc" = []
      ∧ extract_links ["http://[1.2.3.4]/x"] "1.2.3.4" = []
      ∧ extract_links ["http://a℀b.com/x"] "b.com" = []
      ∧ extract_links ["http://[::1]/x"] "::1" = ["http://[::1]/x"] :=
  ⟨mem_extract_links rawMatches domain l, by decide, by decide, by decide, by decide,
    by decide, by decide, by decide, by decide⟩

/-- Claim C8: normalization truncates each match at the first `#` and then at
the first `?utm_`, so the result is a prefix of the match containing no `#`;
in particular `https://example.com/listing/123?utm_source=x#top` and
`https://example.com/listing/123` normalize to the same string, hence produce
identical fingerprints under any fingerprint function, and each truncation is
demonstrated separately on `#b?utm_c` and `?utm_b#c` suffixes. -/
theorem normalization_strips_fragment_then_utm :
    normalize "https://example.com/listing/123?utm_source=x#top"
        = "https://example.com/listing/123"
      ∧ (∀ sha_of : String → String,
          sha_of (normalize "https://example.com/listing/123?utm_source=x#top")
            = sha_of (normalize "https://example.com/listing/123"))
      ∧ normalize "https://e.com/a#b?utm_c" = "https://e.com/a"
      ∧ normalize "https://e.com/a?utm_b#c" = "https://e.com/a"
      ∧ (∀ link : String, (normalize link).data <+: link.data)
      ∧ (∀ link : String, '#' ∉ (normalize link).data) := by
  refine ⟨by decide, ?_, by decide, by decide, normalize_isPre, hash_not_mem_normalize⟩
  intro sha_of
  have h : normalize "https://example.com/listing/123?utm_source=x#top"
      = normalize "https://example.com/listing/123" := by decide
  rw [h]

end HouseWatch
